import Mathlib

/-!
Verification development for the Unique-File-Selection pipeline
(`src/UniqueFileSelection.py`).

The program sorts snapshot-archive filenames by a timestamp embedded in the
filename, reads each archive's HTML entries, parses the first table of each
entry into a per-company mapping, and flags archives whose parsed content
equals the immediately preceding archive's parsed content.

This file shallowly embeds the program: Python `dict`s become association
lists with Python `dict` semantics (insertion order, first-position update,
unordered equality), `arrow.get(s, 'D_M_YYYY_H_m')` becomes an explicit
structured parser, `'{d}'.format` / `str(int)` becomes decimal rendering of
`Nat`, BeautifulSoup documents become an explicit document model, and the
fallible stages return `Option` / `Except`.
-/

namespace UniqueFileSelection

/-! ### Decimal digits: models Python `str(int)` and `int(str)` -/

/-- The ASCII digit character for `d < 10`. -/
def digitChar (d : Nat) : Char := Char.ofNat (48 + d)

/-- Fuel-driven decimal rendering; fuel `n + 1` always suffices. -/
def natToDigitsAux : Nat → Nat → List Char
  | 0, _ => []
  | fuel + 1, n =>
    if n < 10 then [digitChar n]
    else natToDigitsAux fuel (n / 10) ++ [digitChar (n % 10)]

/-- Decimal digit list of `n`, models Python `'{x}'.format(x=n)` (no padding). -/
def natToDigits (n : Nat) : List Char := natToDigitsAux (n + 1) n

/-- Decimal string of `n`. -/
def natStr (n : Nat) : String := String.mk (natToDigits n)

/-- ASCII digit test (the `\d` of the parsing regex, restricted to ASCII). -/
def isDigitChar (c : Char) : Bool := decide ('0' ≤ c) && decide (c ≤ '9')

/-- Numeric value of a digit string, models Python `int(s)`. -/
def digitsToNat (cs : List Char) : Nat := cs.foldl (fun a c => a * 10 + (c.toNat - 48)) 0

/-! ### Calendar timestamps: models the `arrow` date objects -/

/-- A calendar timestamp `(year, month, day, hour, minute)`; the ordering key
of the whole pipeline. -/
structure Date where
  year : Nat
  month : Nat
  day : Nat
  hour : Nat
  minute : Nat
deriving DecidableEq, Repr

/-- Gregorian leap-year rule (as validated by Python `datetime`). -/
def isLeapYear (y : Nat) : Bool := (y % 4 == 0 && y % 100 != 0) || y % 400 == 0

/-- Number of days of month `m` in year `y` (as validated by Python `datetime`). -/
def daysInMonth (y m : Nat) : Nat :=
  if m = 2 then (if isLeapYear y then 29 else 28)
  else if m = 4 ∨ m = 6 ∨ m = 9 ∨ m = 11 then 30
  else 31

/-- A timestamp representable by the naming convention: 4-digit year and
calendar-valid fields (the ranges `datetime` accepts). -/
def validDateB (t : Date) : Bool :=
  decide (1000 ≤ t.year) && decide (t.year ≤ 9999) &&
  decide (1 ≤ t.month) && decide (t.month ≤ 12) &&
  decide (1 ≤ t.day) && decide (t.day ≤ daysInMonth t.year t.month) &&
  decide (t.hour ≤ 23) && decide (t.minute ≤ 59)

/-- Chronological comparison of timestamps: lexicographic on
`(year, month, day, hour, minute)`, exactly how two `arrow` instants at the
same timezone compare. Boolean version used by the sort. -/
def dateLEb (a b : Date) : Bool :=
  if a.year ≠ b.year then decide (a.year < b.year)
  else if a.month ≠ b.month then decide (a.month < b.month)
  else if a.day ≠ b.day then decide (a.day < b.day)
  else if a.hour ≠ b.hour then decide (a.hour < b.hour)
  else decide (a.minute ≤ b.minute)

/-- Propositional form of `dateLEb`. -/
def dateLE (a b : Date) : Prop := dateLEb a b = true

instance (a b : Date) : Decidable (dateLE a b) := by
  unfold dateLE; infer_instance

/-! ### Filename parsing: models `arrow.get(arch_name[8:-4], 'D_M_YYYY_H_m')` -/

/-- Split a character list at every occurrence of `sep` (the field structure
imposed by the literal `_` separators of the format string). -/
def splitOnChar (sep : Char) : List Char → List (List Char)
  | [] => [[]]
  | c :: cs =>
    match splitOnChar sep cs with
    | [] => [[c]]
    | r :: rs => if c = sep then [] :: r :: rs else (c :: r) :: rs

/-- One numeric format token: between `lo` and `hi` digits
(`D`/`M`/`H`/`m` are 1–2 digits, `YYYY` is exactly 4). -/
def parseField (cs : List Char) (lo hi : Nat) : Option Nat :=
  if lo ≤ cs.length ∧ cs.length ≤ hi ∧ cs.all isDigitChar then some (digitsToNat cs)
  else none

/-- Assemble parsed fields into a timestamp, enforcing the calendar ranges
`arrow`/`datetime` validate (`ValueError` otherwise). -/
def parseDateFields (d m y h mi : Nat) : Option Date :=
  if 1 ≤ y ∧ 1 ≤ m ∧ m ≤ 12 ∧ 1 ≤ d ∧ d ≤ daysInMonth y m ∧ h ≤ 23 ∧ mi ≤ 59 then
    some ⟨y, m, d, h, mi⟩
  else none

/-- Models `arrow.get(s, 'D_M_YYYY_H_m')`: five underscore-separated numeric
fields, day/month/hour/minute of 1–2 digits, year of exactly 4 digits,
calendar-validated. `none` models the raised `ParserError`/`ValueError`. -/
def parseDate (s : String) : Option Date :=
  match splitOnChar '_' s.data with
  | [ds, ms, ys, hs, mis] => do
    let d ← parseField ds 1 2
    let m ← parseField ms 1 2
    let y ← parseField ys 4 4
    let h ← parseField hs 1 2
    let mi ← parseField mis 1 2
    parseDateFields d m y h mi
  | _ => none

/-- Python slice `s[8:-4]` on a `str` (fixed-offset slice of the source). -/
def pySliceMid (s : String) : String :=
  let cs := s.data.drop 8
  String.mk (cs.take (cs.length - 4))

/-- Timestamp extraction from one archive filename:
`arrow.get(arch_name[8:-4], 'D_M_YYYY_H_m')`. -/
def parseArchName (s : String) : Option Date := parseDate (pySliceMid s)

/-- Filename recovery from a date object: the source's
`'archive_{d}_{m}_{y}_{H}_{M}.zip'.format(...)`. -/
def renderArchName (t : Date) : String :=
  "archive_" ++ natStr t.day ++ "_" ++ natStr t.month ++ "_" ++ natStr t.year ++ "_" ++
    natStr t.hour ++ "_" ++ natStr t.minute ++ ".zip"

/-- `_sort_filenames_by_date`: parse every filename to a date object (any
failure aborts the run), sort the date objects chronologically, and render
each back to a filename. -/
def sortFilenamesByDate (names : List String) : Except String (List String) :=
  match names.mapM parseArchName with
  | none => Except.error "ParserError"
  | some ds => Except.ok ((ds.mergeSort dateLEb).map renderArchName)

/-- The filename naming convention of the specification:
`archive_{day}_{month}_{year}_{hour}_{minute}.zip` with a calendar-valid
timestamp, numbers rendered the way Python `format` renders integers. -/
def conformsToConvention (s : String) : Prop :=
  ∃ t : Date, validDateB t = true ∧ renderArchName t = s

/-- Executable conformance test (shown equivalent to `conformsToConvention`). -/
def conformCheck (s : String) : Bool :=
  match parseArchName s with
  | some t => validDateB t && decide (renderArchName t = s)
  | none => false

/-! ### HTML document model: the part of a BeautifulSoup tree the program reads -/

/-- An HTML cell element is either a data cell `td` or a header cell `th`. -/
inductive CellTag
  | td
  | th
deriving DecidableEq, Repr

/-- One cell of a table row; `text` models `cell.text` (the concatenated
descendant text of the element). -/
structure Cell where
  tag : CellTag
  text : String
deriving DecidableEq, Repr

/-- One `tr` element: its cell elements in document order. -/
structure Row where
  cells : List Cell
deriving DecidableEq, Repr

/-- One `table` element: its `tr` elements in document order. -/
structure TableTag where
  rows : List Row
deriving DecidableEq, Repr

/-- One parsed entry document: its `table` elements in document order, plus
the rest of the raw content (`noise`), which the program never reads but which
distinguishes byte-wise different entries. -/
structure HtmlDoc where
  tables : List TableTag
  noise : String
deriving DecidableEq, Repr

/-- `BeautifulSoup(value, "html.parser").find("table")`: the first table in
document order, `none` when the document has no table. -/
def findTable (d : HtmlDoc) : Option TableTag := d.tables.head?

/-- Python `str.strip()` on the cell text. -/
def pyStrip (s : String) : String := s.trim

/-- `tr.find_all('td')`: the data cells of a row, in document order. -/
def findAllTd (r : Row) : List Cell := r.cells.filter (fun c => c.tag = CellTag.td)

/-- A parsed table: rows of trimmed data-cell strings. -/
abbrev Table := List (List String)

/-- `_parse_table`: for each `tr` in document order append the list of its
stripped `td` texts (the two nested append loops of the source). -/
def parse_table (t : TableTag) : Table :=
  t.rows.foldl (fun acc r => acc ++ [(findAllTd r).foldl (fun a c => a ++ [pyStrip c.text]) []]) []

/-! ### Python `dict` model -/

/-- A Python `dict` as an association list in insertion order. -/
abbrev PyDict (β : Type) := List (String × β)

/-- `d[k] = v` on a unique-key association list: replace the value at the
first occurrence of `k` keeping its position, else append `(k, v)`. -/
def dictInsert {β : Type} : PyDict β → String → β → PyDict β
  | [], k, v => [(k, v)]
  | p :: ps, k, v => if p.1 = k then (k, v) :: ps else p :: dictInsert ps k v

/-- `d[k]` / `d.get(k)`: value at the first occurrence of `k`. -/
def dictLookup {β : Type} : PyDict β → String → Option β
  | [], _ => none
  | p :: ps, k => if p.1 = k then some p.2 else dictLookup ps k

/-- `list(d.keys())` in insertion order. -/
def dictKeys {β : Type} (d : PyDict β) : List String := d.map Prod.fst

/-- Python `dict.__eq__`: same number of keys and every key-value pair of the
first is present in the second — insertion order is irrelevant. -/
def dictBeq {β : Type} [DecidableEq β] (d1 d2 : PyDict β) : Bool :=
  decide (d1.length = d2.length) && d1.all fun p => decide (dictLookup d2 p.1 = some p.2)

/-! ### `parse_html`: per-entry company-code extraction and table parsing -/

/-- Uppercase ASCII letter test (the character class `[A-Z]`). -/
def isUpperAZ (c : Char) : Bool := decide ('A' ≤ c) && decide (c ≤ 'Z')

/-- `re.match(r"([A-Z]{3})(.*)", key)` followed by `.group(1)`: succeeds
exactly when the name has at least 3 characters and its first 3 are uppercase
ASCII letters, returning those 3 characters; `none` models the
`AttributeError` from calling `.group` on a failed match. -/
def companyCode (key : String) : Option String :=
  if 3 ≤ key.data.length ∧ (key.data.take 3).all isUpperAZ then some (String.mk (key.data.take 3))
  else none

/-- A SnapshotSet: per-archive mapping from company code to parsed table. -/
abbrev Snap := PyDict Table

/-- `parse_html`: iterate the raw-entry dict in insertion order; for each
entry extract the company code and the first table, skipping the entry (the
`except AttributeError` branch) when either step fails, and store the parsed
table under the code (plain `dict` assignment, so a repeated code overwrites). -/
def parse_html (entries : List (String × HtmlDoc)) : Snap :=
  entries.foldl
    (fun acc p =>
      match companyCode p.1 with
      | none => acc
      | some c =>
        match findTable p.2 with
        | none => acc
        | some t => dictInsert acc c (parse_table t))
    []

/-- The entries of an archive that survive per-entry parsing, each paired with
its company code and parsed table, in processing order. -/
def parsedEntries (entries : List (String × HtmlDoc)) : Snap :=
  entries.filterMap fun p =>
    match companyCode p.1, findTable p.2 with
    | some c, some t => some (c, parse_table t)
    | _, _ => none

/-! ### Archive reading and the pipeline -/

/-- What opening one archive path can yield: a readable container with its
entries in internal listing order, a missing file, or a corrupt container. -/
inductive ArchiveSource
  | ok (entries : List (String × HtmlDoc))
  | missing
  | corrupt
deriving DecidableEq

/-- `read_html_from_archive`: enumerate the entries and build the raw dict in
listing order; a missing file or corrupt container raises (is `Except.error`),
never caught locally. -/
def read_html_from_archive : ArchiveSource → Except String (List (String × HtmlDoc))
  | ArchiveSource.ok entries => Except.ok (entries.foldl (fun d p => dictInsert d p.1 p.2) [])
  | ArchiveSource.missing => Except.error "FileNotFoundError"
  | ArchiveSource.corrupt => Except.error "BadZipFile"

/-- `get_html_dict`: read then parse one archive; the read error propagates
untouched (there is no handler between the two calls). -/
def get_html_dict (s : ArchiveSource) : Except String Snap :=
  match read_html_from_archive s with
  | Except.error e => Except.error e
  | Except.ok d => Except.ok (parse_html d)

/-- The parallel parse stage `Pool.map(get_html_dict, sorted_paths)`:
results are collected in the order of the input paths, and a worker's
uncaught exception aborts the whole stage. `fs` maps each path to what the
filesystem holds there. -/
def runParseStage (paths : List String) (fs : String → ArchiveSource) : Except String (List Snap) :=
  paths.mapM fun p => get_html_dict (fs p)

/-- The duplicate-scan loop of `main`, carrying `previous_html_dict`
(initially `None`, and `dict == None` is `False` in Python). -/
def dupScan (prev : Option Snap) : List (String × Snap) → List String
  | [] => []
  | (p, h) :: rest =>
    (if match prev with | none => false | some d => dictBeq h d then [p] else []) ++
      dupScan (some h) rest

/-- Lines 133–139 of `main`: scan the chronologically ordered
`(path, parsed dict)` pairs once, appending the path whenever the dict equals
its immediate predecessor's dict. -/
def duplicateArchPaths (pairs : List (String × Snap)) : List String := dupScan none pairs

/-- `main` without its I/O glue: sort the directory listing, run the parse
stage over the sorted paths, and scan for duplicates. Either failure kind
aborts the run before any report exists. -/
def mainRun (listing : List String) (fs : String → ArchiveSource) : Except String (List String) :=
  match sortFilenamesByDate listing with
  | Except.error e => Except.error e
  | Except.ok sortedPaths =>
    match runParseStage sortedPaths fs with
    | Except.error e => Except.error e
    | Except.ok snaps => Except.ok (duplicateArchPaths (sortedPaths.zip snaps))

/-! ### Generic list and dict lemmas -/

theorem foldl_append_singleton {α β : Type _} (f : α → β) (l : List α) :
    ∀ acc : List β, l.foldl (fun a x => a ++ [f x]) acc = acc ++ l.map f := by
  induction l with
  | nil => intro acc; simp
  | cons x l ih => intro acc; simp [ih]

theorem dictLookup_insert_eq {β : Type} (d : PyDict β) (k : String) (v : β) :
    dictLookup (dictInsert d k v) k = some v := by
  induction d with
  | nil => simp [dictInsert, dictLookup]
  | cons p ps ih =>
    by_cases h : p.1 = k
    · simp [dictInsert, h, dictLookup]
    · simp [dictInsert, h, dictLookup, ih]

theorem dictLookup_cons {β : Type} (p : String × β) (ps : PyDict β) (c : String) :
    dictLookup (p :: ps) c = if p.1 = c then some p.2 else dictLookup ps c := rfl

theorem dictInsert_cons {β : Type} (p : String × β) (ps : PyDict β) (k : String) (v : β) :
    dictInsert (p :: ps) k v = if p.1 = k then (k, v) :: ps else p :: dictInsert ps k v := rfl

theorem dictKeys_cons {β : Type} (p : String × β) (ps : PyDict β) :
    dictKeys (p :: ps) = p.1 :: dictKeys ps := rfl

theorem dictLookup_insert_ne {β : Type} (d : PyDict β) (k c : String) (v : β) (h : c ≠ k) :
    dictLookup (dictInsert d k v) c = dictLookup d c := by
  have h' : ¬ k = c := fun hh => h hh.symm
  induction d with
  | nil => simp [dictInsert, dictLookup, h']
  | cons p ps ih =>
    rw [dictInsert_cons]
    by_cases hp : p.1 = k
    · rw [if_pos hp, dictLookup_cons, dictLookup_cons]
      have hpc : ¬ p.1 = c := by rw [hp]; exact h'
      rw [if_neg h', if_neg hpc]
    · rw [if_neg hp, dictLookup_cons, dictLookup_cons, ih]

theorem dictLookup_append {β : Type} (d1 d2 : PyDict β) (c : String) :
    dictLookup (d1 ++ d2) c = (dictLookup d1 c).or (dictLookup d2 c) := by
  induction d1 with
  | nil => simp [dictLookup]
  | cons p ps ih =>
    by_cases h : p.1 = c
    · simp [dictLookup, h]
    · simp [dictLookup, h, ih]

theorem dictLookup_insert {β : Type} (d : PyDict β) (k c : String) (v : β) :
    dictLookup (dictInsert d k v) c = (dictLookup [(k, v)] c).or (dictLookup d c) := by
  by_cases h : c = k
  · subst h
    rw [dictLookup_insert_eq, dictLookup_cons, if_pos rfl]
    rfl
  · have h' : ¬ k = c := fun hh => h hh.symm
    rw [dictLookup_insert_ne d k c v h, dictLookup_cons, if_neg h']
    rfl

theorem dictKeys_insert {β : Type} (d : PyDict β) (k : String) (v : β) :
    dictKeys (dictInsert d k v) = if k ∈ dictKeys d then dictKeys d else dictKeys d ++ [k] := by
  induction d with
  | nil => simp [dictInsert, dictKeys]
  | cons p ps ih =>
    rw [dictInsert_cons]
    by_cases h : p.1 = k
    · rw [if_pos h, dictKeys_cons, dictKeys_cons,
        if_pos (by rw [← h]; exact List.mem_cons_self p.1 (dictKeys ps)), h]
    · rw [if_neg h, dictKeys_cons, dictKeys_cons, ih]
      have hkp : ¬ k = p.1 := fun hh => h hh.symm
      by_cases hm : k ∈ dictKeys ps
      · rw [if_pos hm, if_pos (List.mem_cons.mpr (Or.inr hm))]
      · rw [if_neg hm, if_neg (by rw [List.mem_cons]; rintro (hh | hh) <;> [exact hkp hh; exact hm hh]),
          List.cons_append]

theorem dictKeys_insert_nodup {β : Type} (d : PyDict β) (k : String) (v : β)
    (h : (dictKeys d).Nodup) : (dictKeys (dictInsert d k v)).Nodup := by
  rw [dictKeys_insert]
  by_cases hk : k ∈ dictKeys d
  · rw [if_pos hk]; exact h
  · rw [if_neg hk, List.nodup_append]
    refine ⟨h, List.nodup_singleton k, ?_⟩
    intro a ha hb
    rw [List.mem_singleton] at hb
    exact hk (hb ▸ ha)

theorem dictLookup_mem_self {β : Type} (d : PyDict β) (h : (dictKeys d).Nodup)
    (p : String × β) (hp : p ∈ d) : dictLookup d p.1 = some p.2 := by
  induction d with
  | nil => cases hp
  | cons q ps ih =>
    rcases List.mem_cons.mp hp with rfl | hp'
    · rw [dictLookup_cons, if_pos rfl]
    · have hq : ¬ q.1 = p.1 := by
        intro hh
        exact (List.nodup_cons.mp h).1 (hh ▸ List.mem_map.mpr ⟨p, hp', rfl⟩)
      rw [dictLookup_cons, if_neg hq]
      exact ih (List.nodup_cons.mp h).2 hp'

theorem dictBeq_refl {β : Type} [DecidableEq β] (d : PyDict β)
    (h : (dictKeys d).Nodup) : dictBeq d d = true := by
  simp only [dictBeq, Bool.and_eq_true, decide_eq_true_eq, List.all_eq_true]
  exact ⟨trivial, fun p hp => by rw [dictLookup_mem_self d h p hp]⟩

theorem foldl_insert_lookup {β : Type} (l : PyDict β) :
    ∀ (acc : PyDict β) (c : String),
      dictLookup (l.foldl (fun d p => dictInsert d p.1 p.2) acc) c =
        (dictLookup l.reverse c).or (dictLookup acc c) := by
  induction l with
  | nil => intro acc c; simp [dictLookup]
  | cons p ps ih =>
    intro acc c
    simp only [List.foldl_cons, List.reverse_cons, ih, dictLookup_append, Option.or_assoc,
      dictLookup_insert]

theorem foldl_insert_nodup {β : Type} (l : PyDict β) :
    ∀ acc : PyDict β, (dictKeys acc).Nodup →
      (dictKeys (l.foldl (fun d p => dictInsert d p.1 p.2) acc)).Nodup := by
  induction l with
  | nil => intro acc h; exact h
  | cons p ps ih =>
    intro acc h
    exact ih _ (dictKeys_insert_nodup acc p.1 p.2 h)

theorem filterMap_if_sublist {α β : Type _} (p : α → Bool) (g : α → β) (l : List α) :
    List.Sublist (l.filterMap fun x => if p x then some (g x) else none) (l.map g) := by
  induction l with
  | nil => exact List.nil_sublist _
  | cons x l ih =>
    cases hp : p x
    · simp [List.filterMap_cons, hp]
      exact ih.cons _
    · simp [List.filterMap_cons, hp]
      exact ih

/-! ### The duplicate scan -/

theorem dupScan_some_eq (ps : List (String × Snap)) :
    ∀ x : String × Snap,
      dupScan (some x.2) ps = ((x :: ps).zip ps).filterMap fun q =>
        if dictBeq q.2.2 q.1.2 then some q.2.1 else none := by
  induction ps with
  | nil => intro x; simp [dupScan]
  | cons q ps ih =>
    intro x
    obtain ⟨qp, qh⟩ := q
    rw [List.zip_cons_cons, List.filterMap_cons]
    show (if dictBeq qh x.2 then [qp] else []) ++ dupScan (some qh) ps = _
    rw [ih ⟨qp, qh⟩]
    cases h : dictBeq qh x.2 <;> simp [h]

theorem duplicateArchPaths_eq (pairs : List (String × Snap)) :
    duplicateArchPaths pairs = (pairs.zip pairs.tail).filterMap fun q =>
      if dictBeq q.2.2 q.1.2 then some q.2.1 else none := by
  cases pairs with
  | nil => simp [duplicateArchPaths, dupScan]
  | cons a rest =>
    obtain ⟨ap, ah⟩ := a
    show dupScan none ((ap, ah) :: rest) = _
    have : dupScan none ((ap, ah) :: rest) = dupScan (some ah) rest := by
      simp [dupScan]
    rw [this, dupScan_some_eq rest ⟨ap, ah⟩]
    rfl

/-! ### `parse_html` structure lemmas -/

theorem parse_html_eq (entries : List (String × HtmlDoc)) :
    parse_html entries = (parsedEntries entries).foldl (fun d p => dictInsert d p.1 p.2) [] := by
  induction entries using List.reverseRecOn with
  | nil => rfl
  | append_singleton l p ih =>
    show (l ++ [p]).foldl _ [] = _
    rw [List.foldl_append, List.foldl_cons, List.foldl_nil]
    have hl : l.foldl _ [] = parse_html l := rfl
    rw [hl, ih]
    have hpe : parsedEntries (l ++ [p]) = parsedEntries l ++ parsedEntries [p] :=
      List.filterMap_append l [p] _
    rw [hpe, List.foldl_append]
    cases hc : companyCode p.1 with
    | none =>
      simp [parsedEntries, hc]
    | some c =>
      cases ht : findTable p.2 with
      | none => simp [parsedEntries, hc, ht]
      | some t => simp [parsedEntries, hc, ht]

/-- C1: The duplicate scan flags exactly the archives whose SnapshotSet equals
the SnapshotSet of their immediate chronological predecessor, in order: the
report is the consecutive-pairs filter of the ordered sequence, only paths of
non-first positions can appear, a run of three equal snapshots flags the
second and the third, and the report is empty when no two consecutive
snapshots are equal. -/
theorem C1_duplicate_scan_spec :
    (∀ pairs : List (String × Snap),
        duplicateArchPaths pairs =
          (pairs.zip pairs.tail).filterMap fun q =>
            if dictBeq q.2.2 q.1.2 then some q.2.1 else none)
    ∧ (∀ pairs : List (String × Snap),
        List.Sublist (duplicateArchPaths pairs) (pairs.tail.map Prod.fst))
    ∧ (∀ pA pB pC : String, ∀ s : Snap, (dictKeys s).Nodup →
        duplicateArchPaths [(pA, s), (pB, s), (pC, s)] = [pB, pC])
    ∧ (∀ pairs : List (String × Snap),
        (∀ q ∈ pairs.zip pairs.tail, dictBeq q.2.2 q.1.2 = false) →
        duplicateArchPaths pairs = []) := by
  refine ⟨duplicateArchPaths_eq, ?_, ?_, ?_⟩
  · intro pairs
    rw [duplicateArchPaths_eq]
    have hs := filterMap_if_sublist (fun q => dictBeq q.2.2 q.1.2) (fun q => q.2.1)
      (pairs.zip pairs.tail)
    have hmap : (pairs.zip pairs.tail).map (fun q => q.2.1) = pairs.tail.map Prod.fst := by
      have hlen : pairs.tail.length ≤ pairs.length := by
        rw [List.length_tail]; omega
      calc (pairs.zip pairs.tail).map (fun q => q.2.1)
          = ((pairs.zip pairs.tail).map Prod.snd).map Prod.fst := by
            rw [List.map_map]; rfl
        _ = pairs.tail.map Prod.fst := by rw [List.map_snd_zip pairs pairs.tail hlen]
    rwa [hmap] at hs
  · intro pA pB pC s h
    have hb := dictBeq_refl s h
    simp [duplicateArchPaths, dupScan, hb]
  · intro pairs h
    rw [duplicateArchPaths_eq]
    refine List.filterMap_eq_nil_iff.mpr fun q hq => ?_
    rw [h q hq]
    rfl

theorem C1_duplicate_scan_spec_witness :
    duplicateArchPaths
        [("a", [("AAA", [["1"]])]), ("b", [("AAA", [["1"]])]), ("c", [("AAA", [["1"]])])] =
      ["b", "c"] :=
  C1_duplicate_scan_spec.2.2.1 "a" "b" "c" [("AAA", [["1"]])] (by decide)

/-- C3: `parse_html` builds the SnapshotSet from exactly the entries whose
name carries a 3-uppercase-letter prefix and whose document has a table,
skipping the failing entries while continuing with the rest; the name
`ABC_2021.html` gives the code `ABC` while `abc_2021.html` fails the pattern
and is skipped without aborting the archive. -/
theorem C3_parse_skip_and_continue :
    (∀ entries : List (String × HtmlDoc),
        parse_html entries =
          (parsedEntries entries).foldl (fun d p => dictInsert d p.1 p.2) [])
    ∧ companyCode "ABC_2021.html" = some "ABC"
    ∧ companyCode "abc_2021.html" = none
    ∧ (∀ dBad dGood : HtmlDoc, ∀ t : TableTag, findTable dGood = some t →
        parse_html [("abc_2021.html", dBad), ("ABC_2021.html", dGood)] =
          [("ABC", parse_table t)]) := by
  refine ⟨parse_html_eq, by decide, by decide, ?_⟩
  intro dBad dGood t ht
  have h1 : companyCode "abc_2021.html" = none := by decide
  have h2 : companyCode "ABC_2021.html" = some "ABC" := by decide
  simp [parse_html, h1, h2, ht, dictInsert]

theorem C3_parse_skip_and_continue_witness :
    parse_html [("abc_2021.html", ⟨[], "x"⟩), ("ABC_2021.html", ⟨[⟨[]⟩], ""⟩)] =
      [("ABC", parse_table ⟨[]⟩)] :=
  C3_parse_skip_and_continue.2.2.2 ⟨[], "x"⟩ ⟨[⟨[]⟩], ""⟩ ⟨[]⟩ rfl

/-- C9: an archive all of whose entries fail per-entry parsing produces the
empty SnapshotSet, and two consecutive such archives are reported as
duplicates of each other regardless of their raw entries. -/
theorem C9_all_failed_empty :
    (∀ entries : List (String × HtmlDoc),
        (∀ p ∈ entries, companyCode p.1 = none ∨ findTable p.2 = none) →
        parse_html entries = [])
    ∧ (∀ p1 p2 : String, ∀ e1 e2 : List (String × HtmlDoc),
        (∀ p ∈ e1, companyCode p.1 = none ∨ findTable p.2 = none) →
        (∀ p ∈ e2, companyCode p.1 = none ∨ findTable p.2 = none) →
        duplicateArchPaths [(p1, parse_html e1), (p2, parse_html e2)] = [p2]) := by
  have hempty : ∀ entries : List (String × HtmlDoc),
      (∀ p ∈ entries, companyCode p.1 = none ∨ findTable p.2 = none) →
      parse_html entries = [] := by
    intro entries h
    rw [parse_html_eq]
    have hpe : parsedEntries entries = [] := by
      refine List.filterMap_eq_nil_iff.mpr fun p hp => ?_
      rcases h p hp with hc | htb
      · simp [hc]
      · cases hcc : companyCode p.1 <;> simp [hcc, htb]
    rw [hpe]
    rfl
  refine ⟨hempty, ?_⟩
  intro p1 p2 e1 e2 h1 h2
  rw [hempty e1 h1, hempty e2 h2]
  simp [duplicateArchPaths, dupScan, dictBeq]

theorem C9_all_failed_empty_witness :
    duplicateArchPaths
        [("a", parse_html [("bad1", ⟨[], "x"⟩)]), ("b", parse_html [("bad2", ⟨[], "y"⟩)])] =
      ["b"] :=
  C9_all_failed_empty.2 "a" "b" [("bad1", ⟨[], "x"⟩)] [("bad2", ⟨[], "y"⟩)]
    (by decide) (by decide)

/-- C10: the company code is exactly the first three characters of the entry
name whenever those are uppercase ASCII letters, whatever follows them; in
particular `ABCD2021.html` yields `ABC` and collides with `ABC_2021.html` in
the same archive, the later entry overwriting the earlier. -/
theorem C10_code_prefix :
    (∀ key : String, 3 ≤ key.data.length → (key.data.take 3).all isUpperAZ = true →
        companyCode key = some (String.mk (key.data.take 3)))
    ∧ companyCode "ABCD2021.html" = some "ABC"
    ∧ (∀ d1 d2 : HtmlDoc, ∀ t1 t2 : TableTag,
        findTable d1 = some t1 → findTable d2 = some t2 →
        parse_html [("ABCD2021.html", d1), ("ABC_2021.html", d2)] =
          [("ABC", parse_table t2)]) := by
  refine ⟨?_, by decide, ?_⟩
  · intro key h1 h2
    rw [companyCode, if_pos ⟨h1, h2⟩]
  · intro d1 d2 t1 t2 h1 h2
    have hc1 : companyCode "ABCD2021.html" = some "ABC" := by decide
    have hc2 : companyCode "ABC_2021.html" = some "ABC" := by decide
    simp [parse_html, hc1, hc2, h1, h2, dictInsert]

theorem C10_code_prefix_witness :
    parse_html [("ABCD2021.html", ⟨[⟨[]⟩], ""⟩), ("ABC_2021.html", ⟨[⟨[⟨[]⟩]⟩], ""⟩)] =
      [("ABC", parse_table ⟨[⟨[]⟩]⟩)] :=
  C10_code_prefix.2.2 ⟨[⟨[]⟩], ""⟩ ⟨[⟨[⟨[]⟩]⟩], ""⟩ ⟨[]⟩ ⟨[⟨[]⟩]⟩ rfl rfl

/-- C7: on duplicate company codes within one archive the last processed entry
wins: looking a code up in the SnapshotSet is looking it up in the reversed
list of successfully parsed entries (first match in reverse order = last
occurrence in processing order), the SnapshotSet's keys are unique, and for
two entries with the same code the result holds only the second table. -/
theorem C7_last_wins :
    (∀ entries : List (String × HtmlDoc), ∀ c : String,
        dictLookup (parse_html entries) c = dictLookup ((parsedEntries entries).reverse) c)
    ∧ (∀ entries : List (String × HtmlDoc), (dictKeys (parse_html entries)).Nodup)
    ∧ (∀ k1 k2 c : String, ∀ dd1 dd2 : HtmlDoc, ∀ t1 t2 : TableTag,
        companyCode k1 = some c → companyCode k2 = some c →
        findTable dd1 = some t1 → findTable dd2 = some t2 →
        parse_html [(k1, dd1), (k2, dd2)] = [(c, parse_table t2)]) := by
  refine ⟨?_, ?_, ?_⟩
  · intro entries c
    rw [parse_html_eq, foldl_insert_lookup]
    show (dictLookup (parsedEntries entries).reverse c).or none = _
    rw [Option.or_none]
  · intro entries
    rw [parse_html_eq]
    exact foldl_insert_nodup _ [] List.nodup_nil
  · intro k1 k2 c dd1 dd2 t1 t2 h1 h2 h3 h4
    simp [parse_html, h1, h2, h3, h4, dictInsert]

theorem C7_last_wins_witness :
    parse_html [("ABC_a.html", ⟨[⟨[]⟩], ""⟩), ("ABC_b.html", ⟨[⟨[⟨[]⟩]⟩], ""⟩)] =
      [("ABC", parse_table ⟨[⟨[]⟩]⟩)] :=
  C7_last_wins.2.2 "ABC_a.html" "ABC_b.html" "ABC" ⟨[⟨[]⟩], ""⟩ ⟨[⟨[⟨[]⟩]⟩], ""⟩
    ⟨[]⟩ ⟨[⟨[]⟩]⟩ (by decide) (by decide) rfl rfl

/-! ### Error propagation at the archive level -/

theorem mapM_except_error {α β : Type} (f : α → Except String β) (l : List α) (a : α)
    (ha : a ∈ l) (e : String) (he : f a = Except.error e) :
    ∃ e2, l.mapM f = Except.error e2 := by
  induction l with
  | nil => cases ha
  | cons b l ih =>
    rw [List.mapM_cons]
    cases hb : f b with
    | error eb => exact ⟨eb, rfl⟩
    | ok xb =>
      rcases List.mem_cons.mp ha with rfl | ha2
      · rw [hb] at he; cases he
      · obtain ⟨e2, h2⟩ := ih ha2
        refine ⟨e2, ?_⟩
        show (List.mapM f l >>= fun xs => pure (xb :: xs)) = Except.error e2
        rw [h2]
        rfl

/-- C4: a missing or corrupt archive makes `read_html_from_archive`, and hence
`get_html_dict`, return an error that no stage of the pipeline catches, so the
parse stage and the whole run abort; a readable archive always parses without
error, whatever its entries (per-entry failures are absorbed). -/
theorem C4_archive_error_propagates :
    (∀ s : ArchiveSource, s = ArchiveSource.missing ∨ s = ArchiveSource.corrupt →
        ∃ e, get_html_dict s = Except.error e)
    ∧ (∀ entries : List (String × HtmlDoc),
        get_html_dict (ArchiveSource.ok entries) =
          Except.ok (parse_html (entries.foldl (fun d p => dictInsert d p.1 p.2) [])))
    ∧ (∀ paths : List String, ∀ fs : String → ArchiveSource, ∀ p, p ∈ paths →
        (fs p = ArchiveSource.missing ∨ fs p = ArchiveSource.corrupt) →
        ∃ e, runParseStage paths fs = Except.error e)
    ∧ (∀ listing : List String, ∀ fs : String → ArchiveSource,
        ∀ sortedPaths : List String, ∀ p,
        sortFilenamesByDate listing = Except.ok sortedPaths → p ∈ sortedPaths →
        (fs p = ArchiveSource.missing ∨ fs p = ArchiveSource.corrupt) →
        ∃ e, mainRun listing fs = Except.error e) := by
  have h1 : ∀ s : ArchiveSource, s = ArchiveSource.missing ∨ s = ArchiveSource.corrupt →
      ∃ e, get_html_dict s = Except.error e := by
    rintro s (rfl | rfl)
    · exact ⟨"FileNotFoundError", rfl⟩
    · exact ⟨"BadZipFile", rfl⟩
  have h3 : ∀ paths : List String, ∀ fs : String → ArchiveSource, ∀ p, p ∈ paths →
      (fs p = ArchiveSource.missing ∨ fs p = ArchiveSource.corrupt) →
      ∃ e, runParseStage paths fs = Except.error e := by
    intro paths fs p hp hbad
    obtain ⟨e, he⟩ := h1 (fs p) hbad
    exact mapM_except_error (fun q => get_html_dict (fs q)) paths p hp e he
  refine ⟨h1, fun entries => rfl, h3, ?_⟩
  intro listing fs sortedPaths p hsort hp hbad
  obtain ⟨e, he⟩ := h3 sortedPaths fs p hp hbad
  refine ⟨e, ?_⟩
  simp only [mainRun, hsort]
  rw [he]

theorem C4_archive_error_propagates_witness :
    ∃ e, runParseStage ["p1"] (fun _ => ArchiveSource.missing) = Except.error e :=
  C4_archive_error_propagates.2.2.1 ["p1"] (fun _ => ArchiveSource.missing) "p1"
    (by decide) (Or.inl rfl)

/-- C6: `_parse_table` returns the table's rows in document order, each row
being the ordered whitespace-trimmed texts of its `td` cells only; a row whose
cells are all header (`th`) cells contributes an empty row at its position. -/
theorem C6_parse_table_rows :
    (∀ t : TableTag,
        parse_table t =
          t.rows.map fun r =>
            (r.cells.filter fun c => c.tag = CellTag.td).map fun c => pyStrip c.text)
    ∧ (∀ t : TableTag, ∀ i : Nat,
        (∀ c ∈ (t.rows.getD i ⟨[]⟩).cells, c.tag = CellTag.th) →
        (parse_table t).getD i [] = []) := by
  have h1 : ∀ t : TableTag,
      parse_table t =
        t.rows.map fun r =>
          (r.cells.filter fun c => c.tag = CellTag.td).map fun c => pyStrip c.text := by
    intro t
    show t.rows.foldl _ [] = _
    rw [foldl_append_singleton
      (fun r => (findAllTd r).foldl (fun a c => a ++ [pyStrip c.text]) []) t.rows [],
      List.nil_append]
    refine List.map_congr_left fun r _ => ?_
    rw [foldl_append_singleton (fun c => pyStrip c.text) (findAllTd r) [], List.nil_append]
    rfl
  refine ⟨h1, ?_⟩
  intro t i h
  rw [h1 t, List.getD_eq_getElem?_getD, List.getElem?_map]
  cases hr : t.rows[i]? with
  | none => rfl
  | some r =>
    rw [List.getD_eq_getElem?_getD, hr] at h
    simp only [Option.getD_some] at h
    have hfil : r.cells.filter (fun c => c.tag = CellTag.td) = [] :=
      List.filter_eq_nil_iff.mpr fun c hc => by rw [h c hc]; decide
    simp [hfil]

theorem C6_parse_table_rows_witness :
    (∀ c ∈ (TableTag.rows ⟨[⟨[⟨CellTag.th, "h1"⟩, ⟨CellTag.th, "h2"⟩]⟩]⟩ |>.getD 0 ⟨[]⟩).cells,
        c.tag = CellTag.th) ∧
    (parse_table ⟨[⟨[⟨CellTag.th, "h1"⟩, ⟨CellTag.th, "h2"⟩]⟩]⟩).getD 0 [] = [] :=
  ⟨by decide, C6_parse_table_rows.2 ⟨[⟨[⟨CellTag.th, "h1"⟩, ⟨CellTag.th, "h2"⟩]⟩]⟩ 0 (by decide)⟩


theorem natToDigitsAux_fuel (n : Nat) : ∀ f1 f2 : Nat, n < f1 → n < f2 →
    natToDigitsAux f1 n = natToDigitsAux f2 n := by
  induction n using Nat.strong_induction_on with
  | _ n ih =>
    intro f1 f2 h1 h2
    cases f1 with
    | zero => omega
    | succ g1 =>
      cases f2 with
      | zero => omega
      | succ g2 =>
        simp only [natToDigitsAux]
        by_cases h : n < 10
        · rw [if_pos h, if_pos h]
        · rw [if_neg h, if_neg h, ih (n / 10) (by omega) g1 g2 (by omega) (by omega)]

theorem natToDigits_unfold (n : Nat) :
    natToDigits n = if n < 10 then [digitChar n]
      else natToDigits (n / 10) ++ [digitChar (n % 10)] := by
  show natToDigitsAux (n + 1) n = _
  simp only [natToDigitsAux]
  by_cases h : n < 10
  · rw [if_pos h, if_pos h]
  · rw [if_neg h, if_neg h,
      natToDigitsAux_fuel (n / 10) n (n / 10 + 1) (by omega) (by omega)]
    rfl

theorem dateLEb_iff (a b : Date) : dateLEb a b = true ↔
    (a.year < b.year ∨ (a.year = b.year ∧ (a.month < b.month ∨ (a.month = b.month ∧
      (a.day < b.day ∨ (a.day = b.day ∧ (a.hour < b.hour ∨ (a.hour = b.hour ∧
        a.minute ≤ b.minute)))))))) := by
  unfold dateLEb
  split_ifs with h1 h2 h3 h4 <;> simp only [decide_eq_true_eq] <;> omega

theorem renderArchName_data (t : Date) : (renderArchName t).data =
    "archive_".data ++ ((natToDigits t.day ++ '_' :: (natToDigits t.month ++ '_' ::
      (natToDigits t.year ++ '_' :: (natToDigits t.hour ++ '_' :: natToDigits t.minute)))) ++ ".zip".data) := by
  simp [renderArchName, String.data_append, natStr, List.append_assoc]

theorem pySliceMid_render (t : Date) :
    (pySliceMid (renderArchName t)).data =
      natToDigits t.day ++ '_' :: (natToDigits t.month ++ '_' ::
        (natToDigits t.year ++ '_' :: (natToDigits t.hour ++ '_' :: natToDigits t.minute))) := by
  show ((renderArchName t).data.drop 8).take (((renderArchName t).data.drop 8).length - 4) = _
  rw [renderArchName_data]
  rw [show (8 : Nat) = ("archive_".data : List Char).length from rfl, List.drop_left]
  rw [List.length_append, show ((".zip".data : List Char)).length = 4 from rfl,
    Nat.add_sub_cancel, List.take_left]

theorem digitChar_toNat (d : Nat) (h : d < 10) : (digitChar d).toNat = 48 + d := by
  interval_cases d <;> decide

theorem isDigitChar_digitChar (d : Nat) (h : d < 10) : isDigitChar (digitChar d) = true := by
  interval_cases d <;> decide

theorem digitsToNat_append (cs : List Char) (c : Char) :
    digitsToNat (cs ++ [c]) = digitsToNat cs * 10 + (c.toNat - 48) := by
  unfold digitsToNat
  rw [List.foldl_append]
  rfl

theorem digitsToNat_natToDigits (n : Nat) : digitsToNat (natToDigits n) = n := by
  induction n using Nat.strong_induction_on with
  | _ n ih =>
    rw [natToDigits_unfold]
    by_cases h : n < 10
    · rw [if_pos h]
      show (0 * 10 + ((digitChar n).toNat - 48)) = n
      rw [digitChar_toNat n h]
      omega
    · rw [if_neg h, digitsToNat_append, ih (n / 10) (by omega),
        digitChar_toNat (n % 10) (by omega)]
      omega

theorem natToDigits_all_digit (n : Nat) : ∀ c ∈ natToDigits n, isDigitChar c = true := by
  induction n using Nat.strong_induction_on with
  | _ n ih =>
    rw [natToDigits_unfold]
    by_cases h : n < 10
    · rw [if_pos h]
      intro c hc
      rw [List.mem_singleton] at hc
      subst hc
      exact isDigitChar_digitChar n h
    · rw [if_neg h]
      intro c hc
      rcases List.mem_append.mp hc with h1 | h2
      · exact ih (n / 10) (by omega) c h1
      · rw [List.mem_singleton] at h2
        subst h2
        exact isDigitChar_digitChar (n % 10) (by omega)

theorem natToDigits_length_lt_ten (n : Nat) (h : n < 10) : (natToDigits n).length = 1 := by
  rw [natToDigits_unfold, if_pos h]
  rfl

theorem natToDigits_length_step (n : Nat) (h : 10 ≤ n) :
    (natToDigits n).length = (natToDigits (n / 10)).length + 1 := by
  rw [natToDigits_unfold, if_neg (by omega), List.length_append]
  rfl

theorem natToDigits_length_pos (n : Nat) : 1 ≤ (natToDigits n).length := by
  by_cases h : n < 10
  · rw [natToDigits_length_lt_ten n h]
  · rw [natToDigits_length_step n (by omega)]
    omega

theorem natToDigits_length_le_two (n : Nat) (h : n ≤ 99) : (natToDigits n).length ≤ 2 := by
  by_cases h10 : n < 10
  · rw [natToDigits_length_lt_ten n h10]
    omega
  · rw [natToDigits_length_step n (by omega), natToDigits_length_lt_ten (n / 10) (by omega)]

theorem natToDigits_length_four (n : Nat) (h1 : 1000 ≤ n) (h2 : n ≤ 9999) :
    (natToDigits n).length = 4 := by
  rw [natToDigits_length_step n (by omega), natToDigits_length_step (n / 10) (by omega),
    natToDigits_length_step (n / 10 / 10) (by omega),
    natToDigits_length_lt_ten (n / 10 / 10 / 10) (by omega)]

theorem splitOnChar_ne_nil (sep : Char) (cs : List Char) : splitOnChar sep cs ≠ [] := by
  cases cs with
  | nil => simp [splitOnChar]
  | cons c cs =>
    show (match splitOnChar sep cs with
      | [] => [[c]]
      | r :: rs => if c = sep then [] :: r :: rs else (c :: r) :: rs) ≠ []
    cases splitOnChar sep cs with
    | nil => simp
    | cons r rs => by_cases h : c = sep <;> simp [h]

theorem splitOnChar_cons_sep (sep : Char) (ys : List Char) :
    splitOnChar sep (sep :: ys) = [] :: splitOnChar sep ys := by
  show (match splitOnChar sep ys with
    | [] => [[sep]]
    | r :: rs => if sep = sep then [] :: r :: rs else (sep :: r) :: rs) = _
  cases hys : splitOnChar sep ys with
  | nil => exact absurd hys (splitOnChar_ne_nil sep ys)
  | cons r rs => simp

theorem splitOnChar_cons_ne (sep c : Char) (cs : List Char) (h : ¬ c = sep)
    (r : List Char) (rs : List (List Char)) (hcs : splitOnChar sep cs = r :: rs) :
    splitOnChar sep (c :: cs) = (c :: r) :: rs := by
  show (match splitOnChar sep cs with
    | [] => [[c]]
    | r :: rs => if c = sep then [] :: r :: rs else (c :: r) :: rs) = _
  rw [hcs]
  simp [h]

theorem splitOnChar_no_sep (sep : Char) (cs : List Char) (h : ∀ c ∈ cs, ¬ c = sep) :
    splitOnChar sep cs = [cs] := by
  induction cs with
  | nil => rfl
  | cons c cs ih =>
    exact splitOnChar_cons_ne sep c cs (h c (List.mem_cons_self c cs)) cs []
      (ih fun x hx => h x (List.mem_cons_of_mem c hx))

theorem splitOnChar_append (sep : Char) (xs ys : List Char) (h : ∀ c ∈ xs, ¬ c = sep) :
    splitOnChar sep (xs ++ sep :: ys) = xs :: splitOnChar sep ys := by
  induction xs with
  | nil => exact splitOnChar_cons_sep sep ys
  | cons x xs ih =>
    have ih2 := ih fun c hc => h c (List.mem_cons_of_mem x hc)
    show splitOnChar sep (x :: (xs ++ sep :: ys)) = _
    cases hsp : splitOnChar sep ys with
    | nil => exact absurd hsp (splitOnChar_ne_nil sep ys)
    | cons r rs =>
      rw [hsp] at ih2
      exact splitOnChar_cons_ne sep x (xs ++ sep :: ys) (h x (List.mem_cons_self x xs))
        xs (r :: rs) ih2

theorem isDigitChar_ne_underscore (c : Char) (h : isDigitChar c = true) : ¬ c = '_' := by
  intro hc
  subst hc
  exact absurd h (by decide)

theorem parseField_natToDigits_le99 (n : Nat) (h : n ≤ 99) :
    parseField (natToDigits n) 1 2 = some n := by
  rw [parseField,
    if_pos ⟨natToDigits_length_pos n, natToDigits_length_le_two n h,
      List.all_eq_true.mpr (natToDigits_all_digit n)⟩,
    digitsToNat_natToDigits]

theorem parseField_natToDigits_year (n : Nat) (h1 : 1000 ≤ n) (h2 : n ≤ 9999) :
    parseField (natToDigits n) 4 4 = some n := by
  rw [parseField,
    if_pos ⟨by rw [natToDigits_length_four n h1 h2], by rw [natToDigits_length_four n h1 h2],
      List.all_eq_true.mpr (natToDigits_all_digit n)⟩,
    digitsToNat_natToDigits]

theorem daysInMonth_le_31 (y m : Nat) : daysInMonth y m ≤ 31 := by
  unfold daysInMonth
  split_ifs <;> omega

theorem validDateB_bounds (t : Date) (hv : validDateB t = true) :
    1000 ≤ t.year ∧ t.year ≤ 9999 ∧ 1 ≤ t.month ∧ t.month ≤ 12 ∧ 1 ≤ t.day ∧
      t.day ≤ daysInMonth t.year t.month ∧ t.hour ≤ 23 ∧ t.minute ≤ 59 := by
  simp only [validDateB, Bool.and_eq_true, decide_eq_true_eq] at hv
  exact ⟨hv.1.1.1.1.1.1.1, hv.1.1.1.1.1.1.2, hv.1.1.1.1.1.2, hv.1.1.1.1.2, hv.1.1.1.2,
    hv.1.1.2, hv.1.2, hv.2⟩

theorem parseArchName_render (t : Date) (hv : validDateB t = true) :
    parseArchName (renderArchName t) = some t := by
  obtain ⟨hy1, hy2, hm1, hm2, hd1, hd2, hh, hmin⟩ := validDateB_bounds t hv
  have hday : ∀ c ∈ natToDigits t.day, ¬ c = '_' :=
    fun c hc => isDigitChar_ne_underscore c (natToDigits_all_digit t.day c hc)
  have hmon : ∀ c ∈ natToDigits t.month, ¬ c = '_' :=
    fun c hc => isDigitChar_ne_underscore c (natToDigits_all_digit t.month c hc)
  have hyear : ∀ c ∈ natToDigits t.year, ¬ c = '_' :=
    fun c hc => isDigitChar_ne_underscore c (natToDigits_all_digit t.year c hc)
  have hhour : ∀ c ∈ natToDigits t.hour, ¬ c = '_' :=
    fun c hc => isDigitChar_ne_underscore c (natToDigits_all_digit t.hour c hc)
  have hminu : ∀ c ∈ natToDigits t.minute, ¬ c = '_' :=
    fun c hc => isDigitChar_ne_underscore c (natToDigits_all_digit t.minute c hc)
  have hsplit : splitOnChar '_' (pySliceMid (renderArchName t)).data =
      [natToDigits t.day, natToDigits t.month, natToDigits t.year, natToDigits t.hour,
        natToDigits t.minute] := by
    rw [pySliceMid_render, splitOnChar_append '_' _ _ hday, splitOnChar_append '_' _ _ hmon,
      splitOnChar_append '_' _ _ hyear, splitOnChar_append '_' _ _ hhour,
      splitOnChar_no_sep '_' _ hminu]
  show parseDate (pySliceMid (renderArchName t)) = some t
  rw [parseDate, hsplit]
  show (do
      let d ← parseField (natToDigits t.day) 1 2
      let m ← parseField (natToDigits t.month) 1 2
      let y ← parseField (natToDigits t.year) 4 4
      let h ← parseField (natToDigits t.hour) 1 2
      let mi ← parseField (natToDigits t.minute) 1 2
      parseDateFields d m y h mi) = some t
  simp only [parseField_natToDigits_le99 t.day (by have := daysInMonth_le_31 t.year t.month; omega),
    parseField_natToDigits_le99 t.month (by omega),
    parseField_natToDigits_year t.year hy1 hy2,
    parseField_natToDigits_le99 t.hour (by omega),
    parseField_natToDigits_le99 t.minute (by omega)]
  show parseDateFields t.day t.month t.year t.hour t.minute = some t
  rw [parseDateFields, if_pos ⟨by omega, hm1, hm2, hd1, hd2, hh, hmin⟩]

theorem conformCheck_iff (s : String) : conformsToConvention s ↔ conformCheck s = true := by
  constructor
  · rintro ⟨t, hv, hr⟩
    have hp : parseArchName s = some t := by
      rw [← hr]
      exact parseArchName_render t hv
    unfold conformCheck
    rw [hp]
    show (validDateB t && decide (renderArchName t = s)) = true
    rw [hv, hr]
    simp
  · intro h
    unfold conformCheck at h
    cases hp : parseArchName s with
    | none => rw [hp] at h; cases h
    | some t =>
      rw [hp] at h
      replace h : (validDateB t && decide (renderArchName t = s)) = true := h
      rw [Bool.and_eq_true, decide_eq_true_eq] at h
      exact ⟨t, h.1, h.2⟩

theorem mapM_option_eq_some {α β : Type} (f : α → Option β) (g : α → β) (l : List α)
    (h : ∀ a ∈ l, f a = some (g a)) : l.mapM f = some (l.map g) := by
  induction l with
  | nil => rfl
  | cons a l ih =>
    rw [List.mapM_cons, h a (List.mem_cons_self a l),
      ih fun x hx => h x (List.mem_cons_of_mem a hx)]
    rfl

theorem mapM_option_eq_none {α β : Type} (f : α → Option β) (l : List α) (a : α)
    (ha : a ∈ l) (hn : f a = none) : l.mapM f = none := by
  induction l with
  | nil => cases ha
  | cons b l ih =>
    rw [List.mapM_cons]
    cases hb : f b with
    | none => rfl
    | some xb =>
      rcases List.mem_cons.mp ha with rfl | ha2
      · rw [hb] at hn; cases hn
      · show (List.mapM f l >>= fun xs => pure (xb :: xs)) = none
        rw [ih ha2]
        rfl

theorem dateLEb_trans (a b c : Date) (h1 : dateLEb a b = true) (h2 : dateLEb b c = true) :
    dateLEb a c = true := by
  rw [dateLEb_iff] at h1 h2 ⊢
  omega

theorem dateLEb_total (a b : Date) : (dateLEb a b || dateLEb b a) = true := by
  rw [Bool.or_eq_true, dateLEb_iff, dateLEb_iff]
  omega

theorem dateLEb_antisymm (a b : Date) (h1 : dateLE a b) (h2 : dateLE b a) : a = b := by
  rw [dateLE, dateLEb_iff] at h1 h2
  obtain ⟨ay, am, ad, ah, ami⟩ := a
  obtain ⟨cy, cm, cd, ch, cmi⟩ := b
  simp only [Date.mk.injEq]
  dsimp only at h1 h2
  omega

instance : IsAntisymm Date dateLE := ⟨dateLEb_antisymm⟩

theorem conformant_parse_key (names : List String)
    (h : ∀ n ∈ names, conformsToConvention n) :
    ∀ n ∈ names, parseArchName n = some ((parseArchName n).getD ⟨0, 0, 0, 0, 0⟩) ∧
      validDateB ((parseArchName n).getD ⟨0, 0, 0, 0, 0⟩) = true ∧
      renderArchName ((parseArchName n).getD ⟨0, 0, 0, 0, 0⟩) = n := by
  intro n hn
  obtain ⟨t, hv, hr⟩ := h n hn
  have hp : parseArchName n = some t := by
    rw [← hr]
    exact parseArchName_render t hv
  rw [hp]
  exact ⟨rfl, hv, hr⟩

/-- C2: for every list of filenames conforming to the naming convention, the
sorter succeeds and returns exactly those filenames, reordered into ascending
order of their embedded `(year, month, day, hour, minute)` timestamps. -/
theorem C2_sorter_sorts_conformant (names : List String)
    (h : ∀ n ∈ names, conformsToConvention n) :
    ∃ out, sortFilenamesByDate names = Except.ok out ∧ out.Perm names ∧
      out.Pairwise fun a b => ∃ ta tb, parseArchName a = some ta ∧
        parseArchName b = some tb ∧ dateLE ta tb := by
  have hkey := conformant_parse_key names h
  have hmapM : names.mapM parseArchName =
      some (names.map fun n => (parseArchName n).getD ⟨0, 0, 0, 0, 0⟩) :=
    mapM_option_eq_some parseArchName _ names fun a ha => (hkey a ha).1
  refine ⟨((names.map fun n => (parseArchName n).getD ⟨0, 0, 0, 0, 0⟩).mergeSort dateLEb).map
    renderArchName, ?_, ?_, ?_⟩
  · unfold sortFilenamesByDate
    rw [hmapM]
  · have hperm1 := (List.mergeSort_perm
      (names.map fun n => (parseArchName n).getD ⟨0, 0, 0, 0, 0⟩) dateLEb).map renderArchName
    have heq : (names.map fun n => (parseArchName n).getD ⟨0, 0, 0, 0, 0⟩).map renderArchName
        = names := by
      rw [List.map_map]
      have hc : ∀ n ∈ names,
          (renderArchName ∘ fun n => (parseArchName n).getD ⟨0, 0, 0, 0, 0⟩) n = id n :=
        fun n hn => (hkey n hn).2.2
      rw [List.map_congr_left hc, List.map_id]
    rw [heq] at hperm1
    exact hperm1
  · have hsorted := List.sorted_mergeSort dateLEb_trans dateLEb_total
      (names.map fun n => (parseArchName n).getD ⟨0, 0, 0, 0, 0⟩)
    have hval : ∀ x ∈ (names.map fun n => (parseArchName n).getD ⟨0, 0, 0, 0, 0⟩).mergeSort
        dateLEb, validDateB x = true := by
      intro x hx
      have hx2 := (List.mergeSort_perm _ dateLEb).mem_iff.mp hx
      obtain ⟨n, hn, rfl⟩ := List.mem_map.mp hx2
      exact (hkey n hn).2.1
    rw [List.pairwise_map]
    refine hsorted.imp_of_mem ?_
    intro a b ha hb hab
    exact ⟨a, b, parseArchName_render a (hval a ha), parseArchName_render b (hval b hb), hab⟩

theorem C2_witness :
    (∀ n ∈ ["archive_2_1_2021_0_0.zip", "archive_1_1_2021_0_0.zip"], conformsToConvention n) ∧
    (∃ out, sortFilenamesByDate ["archive_2_1_2021_0_0.zip", "archive_1_1_2021_0_0.zip"] =
        Except.ok out ∧
      out.Perm ["archive_2_1_2021_0_0.zip", "archive_1_1_2021_0_0.zip"] ∧
      out.Pairwise fun a b => ∃ ta tb, parseArchName a = some ta ∧
        parseArchName b = some tb ∧ dateLE ta tb) := by
  have hc : ∀ n ∈ ["archive_2_1_2021_0_0.zip", "archive_1_1_2021_0_0.zip"],
      conformsToConvention n := by
    intro n hn
    rcases List.mem_cons.mp hn with rfl | hn2
    · exact ⟨⟨2021, 1, 2, 0, 0⟩, by decide, by decide⟩
    · rcases List.mem_cons.mp hn2 with rfl | hn3
      · exact ⟨⟨2021, 1, 1, 0, 0⟩, by decide, by decide⟩
      · cases hn3
  exact ⟨hc, C2_sorter_sorts_conformant _ hc⟩

/-- C8: the sorter's output is invariant under permutation of its input
listing — the order of the result depends only on the parsed timestamps. -/
theorem C8_sorter_perm_invariant (names1 names2 : List String) (hp : names1.Perm names2)
    (h : ∀ n ∈ names1, conformsToConvention n) :
    sortFilenamesByDate names1 = sortFilenamesByDate names2 := by
  have h2 : ∀ n ∈ names2, conformsToConvention n := fun n hn => h n (hp.mem_iff.mpr hn)
  have hkey1 := conformant_parse_key names1 h
  have hkey2 := conformant_parse_key names2 h2
  have hm1 : names1.mapM parseArchName =
      some (names1.map fun n => (parseArchName n).getD ⟨0, 0, 0, 0, 0⟩) :=
    mapM_option_eq_some parseArchName _ names1 fun a ha => (hkey1 a ha).1
  have hm2 : names2.mapM parseArchName =
      some (names2.map fun n => (parseArchName n).getD ⟨0, 0, 0, 0, 0⟩) :=
    mapM_option_eq_some parseArchName _ names2 fun a ha => (hkey2 a ha).1
  have hsmeq : (names1.map fun n => (parseArchName n).getD ⟨0, 0, 0, 0, 0⟩).mergeSort dateLEb =
      (names2.map fun n => (parseArchName n).getD ⟨0, 0, 0, 0, 0⟩).mergeSort dateLEb := by
    apply List.eq_of_perm_of_sorted (r := dateLE)
    · exact ((List.mergeSort_perm _ _).trans
        (hp.map fun n => (parseArchName n).getD ⟨0, 0, 0, 0, 0⟩)).trans
        (List.mergeSort_perm _ _).symm
    · exact List.sorted_mergeSort dateLEb_trans dateLEb_total _
    · exact List.sorted_mergeSort dateLEb_trans dateLEb_total _
  have hout1 : sortFilenamesByDate names1 = Except.ok
      (((names1.map fun n => (parseArchName n).getD ⟨0, 0, 0, 0, 0⟩).mergeSort dateLEb).map
        renderArchName) := by
    unfold sortFilenamesByDate
    rw [hm1]
  have hout2 : sortFilenamesByDate names2 = Except.ok
      (((names2.map fun n => (parseArchName n).getD ⟨0, 0, 0, 0, 0⟩).mergeSort dateLEb).map
        renderArchName) := by
    unfold sortFilenamesByDate
    rw [hm2]
  rw [hout1, hout2, hsmeq]

theorem C8_witness :
    sortFilenamesByDate ["archive_2_1_2021_0_0.zip", "archive_1_1_2021_0_0.zip"] =
      sortFilenamesByDate ["archive_1_1_2021_0_0.zip", "archive_2_1_2021_0_0.zip"] := by
  have hc : ∀ n ∈ ["archive_2_1_2021_0_0.zip", "archive_1_1_2021_0_0.zip"],
      conformsToConvention n := by
    intro n hn
    rcases List.mem_cons.mp hn with rfl | hn2
    · exact ⟨⟨2021, 1, 2, 0, 0⟩, by decide, by decide⟩
    · rcases List.mem_cons.mp hn2 with rfl | hn3
      · exact ⟨⟨2021, 1, 1, 0, 0⟩, by decide, by decide⟩
      · cases hn3
  exact C8_sorter_perm_invariant _ _
    (List.Perm.swap "archive_1_1_2021_0_0.zip" "archive_2_1_2021_0_0.zip" []) hc

/-- C5 (counterexample): `zzzzzzzz1_1_2021_0_0.zip` does not match the naming
convention, yet the sorter accepts it — the fixed-offset slice `[8:-4]` never
inspects the prefix, so no naming-convention error is raised. -/
theorem C5_counterexample :
    ¬ conformsToConvention "zzzzzzzz1_1_2021_0_0.zip" ∧
    sortFilenamesByDate ["zzzzzzzz1_1_2021_0_0.zip"] =
      Except.ok ["archive_1_1_2021_0_0.zip"] := by
  constructor
  · rw [conformCheck_iff]
    decide
  · unfold sortFilenamesByDate
    rw [show ["zzzzzzzz1_1_2021_0_0.zip"].mapM parseArchName =
        some [(⟨2021, 1, 1, 0, 0⟩ : Date)] from by decide]
    show Except.ok (([(⟨2021, 1, 1, 0, 0⟩ : Date)].mergeSort dateLEb).map renderArchName) = _
    rw [List.mergeSort_singleton]
    show Except.ok [renderArchName ⟨2021, 1, 1, 0, 0⟩] = _
    rw [show renderArchName ⟨2021, 1, 1, 0, 0⟩ = "archive_1_1_2021_0_0.zip" from by decide]

/-- C5 (amended): the run aborts exactly when timestamp decoding of some
filename's character slice `[8:-4]` fails under the `D_M_YYYY_H_m` format;
such a failure anywhere in the listing makes the sorter raise and `main`
abort with no report. A filename violating the convention only outside that
slice (e.g. in its prefix) is not detected. -/
theorem C5_bad_slice_aborts (names : List String)
    (h : ∃ n ∈ names, parseArchName n = none) :
    sortFilenamesByDate names = Except.error "ParserError" ∧
    ∀ fs : String → ArchiveSource, mainRun names fs = Except.error "ParserError" := by
  obtain ⟨n, hn, hpn⟩ := h
  have hm : names.mapM parseArchName = none := mapM_option_eq_none parseArchName names n hn hpn
  have hs : sortFilenamesByDate names = Except.error "ParserError" := by
    unfold sortFilenamesByDate
    rw [hm]
  refine ⟨hs, fun fs => ?_⟩
  unfold mainRun
  rw [hs]

theorem C5_bad_slice_aborts_witness :
    sortFilenamesByDate ["archive_x.zip"] = Except.error "ParserError" :=
  (C5_bad_slice_aborts ["archive_x.zip"] ⟨"archive_x.zip", by decide, by decide⟩).1

end UniqueFileSelection
